import Mathlib

/-
Verification of the gita-counsellor repository.

The in-scope code is the streaming research client in
src/frontend/src/components/ResearchProgress.jsx: it reads a
server-sent-event style byte stream, splits it into newline-terminated
frames through a bounded line buffer, parses each data frame as JSON and
feeds the parsed progress events to handleProgress, which drives the
progress UI state and fires the onComplete / onError callbacks.  The
submit handlers of the App component are embedded as well.  The backend
research pipeline and its verse deduplication are not part of the source
tree; they are modelled from the specification where a claim needs them.

JavaScript values flowing through the consumer are modelled by the JVal
type below; JSON.parse is modelled by an abstract function
parse : List Char -> Option JVal (none standing for a thrown exception),
and strings are modelled as lists of characters so that chunk
concatenation and line splitting can be reasoned about directly.
-/

namespace GitaCounsellor

/-- A JSON-like JavaScript value, the result of JSON.parse. -/
inductive JVal where
  | null : JVal
  | bool (b : Bool) : JVal
  | num (n : Int) : JVal
  | str (s : String) : JVal
  | arr (elems : List JVal) : JVal
  | obj (fields : List (String × JVal)) : JVal


/-- JavaScript truthiness of a JVal. -/
def jTruthy : JVal → Bool
  | .null => false
  | .bool b => b
  | .num n => n != 0
  | .str s => s != ""
  | .arr _ => true
  | .obj _ => true

/-- Whether a JavaScript typeof test against the string for objects
succeeds on the value (null, arrays and objects qualify). -/
def jTypeofObject : JVal → Bool
  | .null => true
  | .arr _ => true
  | .obj _ => true
  | _ => false

/-- Property lookup in an object field list (JSON objects have unique
keys, so first match is the match). -/
def lookupField : List (String × JVal) → String → JVal
  | [], _ => .null
  | (k, v) :: rest, key => if k = key then v else lookupField rest key

/-- data.key access: the field value on objects, otherwise a falsy
placeholder (missing properties are falsy and never typeof-object in the
paths the consumer takes). -/
def jGet : JVal → String → JVal
  | .obj fs, key => lookupField fs key
  | _, _ => .null

/-- The JavaScript in-operator test for a property key. -/
def jHasField : JVal → String → Bool
  | .obj fs, key => fs.any (fun f => f.1 == key)
  | _, _ => false

/-- JavaScript a || b on values: a when truthy, otherwise b. -/
def jOr (a b : JVal) : JVal := if jTruthy a then a else b

/-- Strict equality of a value against a string literal. -/
def jIsStr (v : JVal) (s : String) : Bool :=
  match v with
  | .str t => t == s
  | _ => false

/-- One entry of the steps history kept by handleProgress. -/
structure StepEntry where
  step : JVal
  message : JVal
  details : JVal
  timestamp : Nat


/-- The React state and closure variables of the ResearchProgress
component that handleProgress reads and writes: isActive (closure
variable), isCompleteRef (ref), currentStep, message, details, steps and
isComplete (useState hooks). -/
structure ConsumerState where
  isActive : Bool
  isCompleteRef : Bool
  currentStep : JVal
  message : JVal
  details : JVal
  steps : List StepEntry
  isComplete : Bool


/-- The state at the start of a stream request: hooks at their initial
values, isActive true, isCompleteRef reset to false. -/
def initConsumer : ConsumerState :=
  { isActive := true
    isCompleteRef := false
    currentStep := JVal.null
    message := JVal.str ""
    details := JVal.obj []
    steps := []
    isComplete := false }

/-- A user-visible callback fired by the consumer. -/
inductive CB where
  | onComplete (details : JVal) : CB
  | onError (message : JVal) : CB


/-- JavaScript slice with negative start: the last n elements. -/
def takeLast (n : Nat) (l : List α) : List α := l.drop (l.length - n)

/-- The steps history entry appended by handleProgress, with the
defaulted step, message and details fields and the Date.now timestamp. -/
def mkStepEntry (data : JVal) (now : Nat) : StepEntry :=
  { step := jOr (jGet data "step") (JVal.str "unknown")
    message := jOr (jGet data "message") (JVal.str "")
    details := jOr (jGet data "details") (JVal.obj [])
    timestamp := now }

/-- handleProgress from ResearchProgress.jsx: ignores events once the
stream is inactive; otherwise extracts step, message and details with
defaults, updates the current-step state and the bounded steps history,
and on a terminal step marks the stream complete and inactive and fires
onComplete (completed, object details), onError (completed, non-object
details) or onError (error step). -/
def handleProgress (s : ConsumerState) (data : JVal) (now : Nat) :
    ConsumerState × List CB :=
  if !s.isActive then (s, [])
  else
    let step := jOr (jGet data "step") (JVal.str "unknown")
    let message := jOr (jGet data "message") (JVal.str "")
    let details := jOr (jGet data "details") (JVal.obj [])
    let s1 : ConsumerState :=
      { s with
        currentStep := step
        message := message
        details := details
        steps := takeLast 50 (s.steps ++ [mkStepEntry data now]) }
    if jIsStr step "completed" then
      let s2 : ConsumerState :=
        { s1 with isCompleteRef := true, isComplete := true, isActive := false }
      if jTruthy details && jTypeofObject details then
        (s2, [CB.onComplete details])
      else
        (s2, [CB.onError (JVal.str "Invalid completion data")])
    else if jIsStr step "error" then
      ({ s1 with isCompleteRef := true, isComplete := true, isActive := false },
       [CB.onError (jOr message (JVal.str "Unknown error occurred"))])
    else
      (s1, [])

/-- Delivery of a sequence of already parsed progress events to
handleProgress, accumulating the fired callbacks in order. -/
def processEvents (s : ConsumerState) (evs : List JVal) (now : Nat) :
    ConsumerState × List CB :=
  match evs with
  | [] => (s, [])
  | e :: rest =>
    let r1 := handleProgress s e now
    let r2 := processEvents r1.1 rest now
    (r2.1, r1.2 ++ r2.2)

/-- JavaScript String.trim on a character list: strip leading and
trailing whitespace. -/
def jsTrim (l : List Char) : List Char :=
  ((l.dropWhile Char.isWhitespace).reverse.dropWhile Char.isWhitespace).reverse

/-- JavaScript String.split on a single newline separator: the list of
parts; always nonempty, and the last part is the text after the final
newline (empty when the input ends in a newline). -/
def splitNl : List Char → List (List Char)
  | [] => [[]]
  | c :: rest =>
    if c = '\n' then [] :: splitNl rest
    else
      match splitNl rest with
      | [] => [[c]]
      | p :: ps => (c :: p) :: ps

/-- The trailing incomplete line of a character stream: the last part of
the newline split, which readStream keeps in its buffer. -/
def lastPart (l : List Char) : List Char := ((splitNl l).getLast?).getD []

/-- The 1 MiB cap on the buffered incomplete line. -/
def MAX_BUFFER_SIZE : Nat := 1024 * 1024

/-- One complete received line, as treated inside the readStream loop:
blank lines and heartbeat lines are skipped; a data line has its payload
parsed (an unparseable payload is caught, logged and dropped) and the
parsed value is handed to handleProgress only when it is a truthy
object-typed value with a step property.  The third component records
the arguments of the handleProgress calls the line causes. -/
def processLine (parse : List Char → Option JVal) (now : Nat)
    (s : ConsumerState) (line : List Char) :
    ConsumerState × List CB × List JVal :=
  if jsTrim line = [] ∨ [':'] <+: line then (s, [], [])
  else if "data: ".toList <+: line then
    match parse (line.drop 6) with
    | none => (s, [], [])
    | some data =>
      if jTruthy data && jTypeofObject data && jHasField data "step" then
        let r := handleProgress s data now
        (r.1, r.2, [data])
      else (s, [], [])
  else (s, [], [])

/-- The for loop of readStream over the complete lines of one decoded
chunk. -/
def processLines (parse : List Char → Option JVal) (now : Nat)
    (s : ConsumerState) : List (List Char) →
    ConsumerState × List CB × List JVal
  | [] => (s, [], [])
  | line :: rest =>
    let r1 := processLine parse now s line
    let r2 := processLines parse now r1.1 rest
    (r2.1, r1.2.1 ++ r2.2.1, r1.2.2 ++ r2.2.2)

/-- The mutable state of the readStream loop: the line buffer plus the
consumer state handleProgress works on. -/
structure ReadState where
  buffer : List Char
  cs : ConsumerState

/-- The read state at the start of a stream request. -/
def initReadState : ReadState := { buffer := [], cs := initConsumer }

/-- The readStream recursion of ResearchProgress.jsx over the sequence
of decoded chunks the reader delivers, ending with a done read.  Each
round first returns if the stream is no longer active; a done read
reports a stream that ended without a terminal event; an oversized
buffer aborts with a buffer-overflow error, clearing the buffer and
reading no further chunk; otherwise the chunk is appended to the buffer,
the complete lines are processed and the trailing incomplete line is
kept buffered.  Returns the final read state, the fired callbacks and
the arguments of all handleProgress calls, in order. -/
def runStream (parse : List Char → Option JVal) (now : Nat) :
    ReadState → List (List Char) → ReadState × List CB × List JVal
  | rs, [] =>
    if !rs.cs.isActive then (rs, [], [])
    else if rs.cs.isCompleteRef then (rs, [], [])
    else (rs, [CB.onError (JVal.str "Stream ended unexpectedly")], [])
  | rs, chunk :: rest =>
    if !rs.cs.isActive then (rs, [], [])
    else if rs.buffer.length > MAX_BUFFER_SIZE then
      ({ rs with buffer := [] },
       [CB.onError (JVal.str "Stream buffer overflow")], [])
    else
      let parts := splitNl (rs.buffer ++ chunk)
      let r1 := processLines parse now rs.cs parts.dropLast
      let r2 := runStream parse now { buffer := (parts.getLast?).getD [], cs := r1.1 } rest
      (r2.1, r1.2.1 ++ r2.2.1, r1.2.2 ++ r2.2.2)

/-- Reference semantics of a whole stream consumption as a function of
the concatenated stream text alone: process every complete line of the
stream in order, then apply the end-of-stream rule.  Chunk-boundary
independence of readStream is proved against this function. -/
def canonStream (parse : List Char → Option JVal) (now : Nat)
    (s : ConsumerState) (text : List Char) : ConsumerState × List CB :=
  let r := processLines parse now s (splitNl text).dropLast
  if !r.1.isActive then (r.1, r.2.1)
  else if r.1.isCompleteRef then (r.1, r.2.1)
  else (r.1, r.2.1 ++ [CB.onError (JVal.str "Stream ended unexpectedly")])

/-- The observable outcome of a stream consumption: the final consumer
state and the fired callbacks. -/
def streamOutcome (parse : List Char → Option JVal) (now : Nat)
    (chunks : List (List Char)) : ConsumerState × List CB :=
  ((runStream parse now initReadState chunks).1.cs,
   (runStream parse now initReadState chunks).2.1)

/-- A parse function that fails on every payload, standing for a
JSON.parse that always throws. -/
def noParse : List Char → Option JVal := fun _ => none

/-- A progress event with an error step. -/
def evErrorStep : JVal := JVal.obj [("step", JVal.str "error")]

/-- A progress event with an ordinary, non-terminal step. -/
def evPlainStep : JVal := JVal.obj [("step", JVal.str "analyzing")]

/-- A parse function for concrete stream runs: the payload e parses to
an error-step event, the payload p to a non-terminal event, anything
else fails to parse. -/
def demoParse : List Char → Option JVal := fun l =>
  if l = ['e'] then some evErrorStep
  else if l = ['p'] then some evPlainStep
  else none

/-- The state of the ResearchView component of the App that handleSubmit
reads and writes. -/
structure AppState where
  loading : Bool
  error : Option String
  result : Option JVal
  showProgress : Bool
  currentQuery : List Char

/-- handleSubmit of the ResearchView component: returns unchanged when
the trimmed query is empty or a request is already loading; otherwise
starts a research run by clearing error and result, showing the
progress component and recording the submitted query. -/
def handleSubmit (query : List Char) (st : AppState) : AppState :=
  if jsTrim query = [] ∨ st.loading then st
  else
    { st with
      loading := true
      error := none
      result := none
      showProgress := true
      currentQuery := query }

/-- The guard at the top of the ResearchProgress stream effect: with a
falsy (empty) query prop the effect returns before the fetch, so a
stream request is issued only for a nonempty query. -/
def researchProgressStartsFetch (query : List Char) : Bool :=
  !query.isEmpty

/-- The progress step tags of the research pipeline. -/
inductive Step where
  | analyzing | questions_generated | searching_verse | verses_found
  | searching_purports | purports_found | synthesizing | finalizing
  | completed | error
deriving DecidableEq

/-- The position of each step in the fixed logical stage order; the
terminal tags come last, and an error may cut the sequence short from
any stage. -/
def stepRank : Step → Nat
  | .analyzing => 0
  | .questions_generated => 1
  | .searching_verse => 2
  | .verses_found => 3
  | .searching_purports => 4
  | .purports_found => 5
  | .synthesizing => 6
  | .finalizing => 7
  | .completed => 8
  | .error => 9

/-- Whether a step tag is terminal. -/
def isTerminalStep (s : Step) : Bool := s == .completed || s == .error

/-- The outcomes of the external collaborators during one pipeline run:
whether the analyze call succeeds, how many sub-questions generation
yields, whether the Vector Index is reachable at all, whether the
initial verse count falls below the fallback threshold, and whether
synthesis succeeds. -/
structure PipelineOracle where
  analyzeOk : Bool
  nQuestions : Nat
  indexOk : Bool
  needFallback : Bool
  synthOk : Bool

/-- Modelled from the spec: the backend Research Pipeline is not under
src, so its event sequence is modelled from sections 4.1 and 7 of the
specification.  The stages run in fixed order - analyzing, then
questions_generated, then one searching_verse per sub-question, then
verses_found, then the optional searching_purports and purports_found
fallback, then synthesizing and finalizing, terminated by completed -
and any fatal condition (analyze failure, empty sub-question list, a
fully unreachable Vector Index, synthesis failure) instead emits a
single error event which ends the sequence. -/
def pipelineEvents (o : PipelineOracle) : List Step :=
  Step.analyzing ::
    (if !o.analyzeOk then [Step.error]
     else if o.nQuestions = 0 then [Step.error]
     else Step.questions_generated ::
       (List.replicate o.nQuestions Step.searching_verse ++
         (if !o.indexOk then [Step.error]
          else Step.verses_found ::
            ((if o.needFallback then
                [Step.searching_purports, Step.purports_found]
              else []) ++
             (if !o.synthOk then [Step.error]
              else [Step.synthesizing, Step.finalizing, Step.completed])))))

/-- Modelled from the spec: an empty query is rejected before pipeline
start, so a run on a whitespace query emits nothing; a valid query runs
the staged pipeline. -/
def pipelineRun (query : List Char) (o : PipelineOracle) : List Step :=
  if jsTrim query = [] then [] else pipelineEvents o

/-- A retrieved verse with its relevance score and the sub-question
that produced it. -/
structure VerseMatch where
  verseId : String
  score : ℚ
  question : String
deriving DecidableEq

/-- Modelled from the spec: insertion of one retrieved match into the
running deduplicated verse accumulator, keyed by verse identifier; on a
duplicate identifier the match with the higher score wins. -/
def insertMatch : List VerseMatch → VerseMatch → List VerseMatch
  | [], m => [m]
  | a :: rest, m =>
    if a.verseId = m.verseId then
      (if a.score < m.score then m else a) :: rest
    else
      a :: insertMatch rest m

/-- Modelled from the spec: the deduplicated verse list of a research
run, accumulated over all retrieved matches across all sub-questions. -/
def dedupMatches (ms : List VerseMatch) : List VerseMatch :=
  ms.foldl insertMatch []

/-- The accumulator invariant of the deduplicating fold over the
retrieved matches src: identifiers are unique, every kept entry carries
the maximum score among the matches of src for its verse and attains a
score actually retrieved, and every retrieved verse is represented. -/
def DedupGood (src acc : List VerseMatch) : Prop :=
  (acc.map VerseMatch.verseId).Nodup ∧
    (∀ e ∈ acc,
      (∀ m ∈ src, m.verseId = e.verseId → m.score ≤ e.score) ∧
        ∃ m ∈ src, m.verseId = e.verseId ∧ m.score = e.score) ∧
    ∀ m ∈ src, ∃ e ∈ acc, e.verseId = m.verseId

/-- A buffered line one character over the 1 MiB cap, used to exercise
the overflow branch. -/
def bigBuffer : List Char := List.replicate (MAX_BUFFER_SIZE + 1) 'a'

/-
Lemmas about the embedded definitions, followed by the claim theorems.
-/

/-- handleProgress on an inactive stream returns immediately: the state
is untouched and no callback fires. -/
theorem handleProgress_inactive (s : ConsumerState) (data : JVal) (now : Nat)
    (h : s.isActive = false) : handleProgress s data now = (s, []) := by
  simp [handleProgress, h]

/-- handleProgress on an active stream either handles a non-terminal
event (stream stays active, completion flag unchanged, no callback) or a
terminal one (stream becomes inactive and complete, exactly one callback
fires). -/
theorem handleProgress_dichotomy (s : ConsumerState) (data : JVal) (now : Nat)
    (h : s.isActive = true) :
    ((handleProgress s data now).1.isActive = true ∧
      (handleProgress s data now).1.isCompleteRef = s.isCompleteRef ∧
      (handleProgress s data now).2 = []) ∨
    ((handleProgress s data now).1.isActive = false ∧
      (handleProgress s data now).1.isCompleteRef = true ∧
      (handleProgress s data now).2.length = 1) := by
  simp only [handleProgress, h, Bool.not_true, Bool.false_eq_true, if_false]
  split
  · split
    · exact Or.inr ⟨rfl, rfl, rfl⟩
    · exact Or.inr ⟨rfl, rfl, rfl⟩
  · split
    · exact Or.inr ⟨rfl, rfl, rfl⟩
    · exact Or.inl ⟨rfl, rfl, rfl⟩

/-- handleProgress on an active stream replaces the steps history with
the last fifty entries of the history extended by the event. -/
theorem handleProgress_steps (s : ConsumerState) (data : JVal) (now : Nat)
    (h : s.isActive = true) :
    (handleProgress s data now).1.steps =
      takeLast 50 (s.steps ++ [mkStepEntry data now]) := by
  simp only [handleProgress, h, Bool.not_true, Bool.false_eq_true, if_false]
  split
  · split <;> rfl
  · split <;> rfl

/-- takeLast returns at most the requested number of elements. -/
theorem takeLast_length_le (n : Nat) (l : List α) :
    (takeLast n l).length ≤ n := by
  simp only [takeLast, List.length_drop]
  omega

/-- takeLast returns a suffix of the list. -/
theorem takeLast_isSuffix (n : Nat) (l : List α) : takeLast n l <:+ l :=
  ⟨l.take (l.length - n), List.take_append_drop _ l⟩

/-- Delivering any event sequence to an inactive stream changes nothing
and fires nothing. -/
theorem processEvents_inactive (s : ConsumerState) (evs : List JVal) (now : Nat)
    (h : s.isActive = false) : processEvents s evs now = (s, []) := by
  induction evs with
  | nil => rfl
  | cons e rest ih =>
    simp [processEvents, handleProgress_inactive s e now h, ih]

/-- Over any event sequence, at most one callback fires. -/
theorem processEvents_count_le_one (s : ConsumerState) (evs : List JVal)
    (now : Nat) : (processEvents s evs now).2.length ≤ 1 := by
  induction evs generalizing s with
  | nil => simp [processEvents]
  | cons e rest ih =>
    by_cases h : s.isActive = true
    · rcases handleProgress_dichotomy s e now h with ⟨_, _, hcb⟩ | ⟨hact, _, hcb⟩
      · simp only [processEvents, hcb, List.nil_append]
        exact ih _
      · simp only [processEvents,
          processEvents_inactive (handleProgress s e now).1 rest now hact,
          List.append_nil]
        omega
    · rw [processEvents_inactive s (e :: rest) now (by simpa using h)]
      simp

/-- C1.  After the first terminal event is processed, no further
incoming progress events are delivered: over any sequence of parsed
events handleProgress fires at most one completion callback (onComplete
or onError), and once the stream is marked inactive handleProgress
ignores every further event, leaving the state untouched and firing
nothing. -/
theorem terminal_event_ends_delivery (s : ConsumerState) (evs : List JVal)
    (now : Nat) :
    (processEvents s evs now).2.length ≤ 1 ∧
      (s.isActive = false → processEvents s evs now = (s, [])) :=
  ⟨processEvents_count_le_one s evs now,
   fun h => processEvents_inactive s evs now h⟩

/-- Witness for C1 at concrete inputs: the bound on a concrete event
sequence, and the ignore rule at a concrete inactive state. -/
theorem terminal_event_ends_delivery_witness :
    (processEvents initConsumer [evErrorStep, evPlainStep] 0).2.length ≤ 1 ∧
      processEvents { initConsumer with isActive := false } [evPlainStep] 0 =
        ({ initConsumer with isActive := false }, []) :=
  ⟨(terminal_event_ends_delivery initConsumer [evErrorStep, evPlainStep] 0).1,
   (terminal_event_ends_delivery { initConsumer with isActive := false }
      [evPlainStep] 0).2 rfl⟩

/-- Starting from a history of at most fifty entries, one handleProgress
call leaves at most fifty entries. -/
theorem handleProgress_steps_le (s : ConsumerState) (data : JVal) (now : Nat)
    (h : s.steps.length ≤ 50) :
    (handleProgress s data now).1.steps.length ≤ 50 := by
  by_cases ha : s.isActive = true
  · rw [handleProgress_steps s data now ha]
    exact takeLast_length_le _ _
  · rw [handleProgress_inactive s data now (by simpa using ha)]
    exact h

/-- C10.  The progress-step history kept by the consumer is bounded:
starting from the initial state, after any sequence of processed events
the steps list holds at most fifty entries, and each active
handleProgress call keeps a suffix (the most recent entries) of the
previous history extended by the new entry. -/
theorem steps_history_bounded :
    (∀ evs now, (processEvents initConsumer evs now).1.steps.length ≤ 50) ∧
      (∀ s data now, s.isActive = true →
        (handleProgress s data now).1.steps <:+
          s.steps ++ [mkStepEntry data now]) := by
  constructor
  · intro evs now
    suffices h : ∀ evs (s : ConsumerState), s.steps.length ≤ 50 →
        (processEvents s evs now).1.steps.length ≤ 50 by
      exact h evs initConsumer (by simp [initConsumer])
    intro evs
    induction evs with
    | nil => intro s hs; exact hs
    | cons e rest ih =>
      intro s hs
      exact ih _ (handleProgress_steps_le s e now hs)
  · intro s data now h
    rw [handleProgress_steps s data now h]
    exact takeLast_isSuffix _ _

/-- Witness for C10 at a concrete state and event. -/
theorem steps_history_bounded_witness :
    (processEvents initConsumer [evPlainStep, evPlainStep] 0).1.steps.length ≤ 50 ∧
      (handleProgress initConsumer evPlainStep 0).1.steps <:+
        initConsumer.steps ++ [mkStepEntry evPlainStep 0] :=
  ⟨steps_history_bounded.1 [evPlainStep, evPlainStep] 0,
   steps_history_bounded.2 initConsumer evPlainStep 0 rfl⟩

/-- C7.  A blank line or a keep-alive line starting with a colon is
skipped by the readStream loop: no handleProgress call, no state change,
no callback and no error. -/
theorem blank_and_heartbeat_skipped
    (parse : List Char → Option JVal) (now : Nat) (s : ConsumerState)
    (line : List Char) (h : jsTrim line = [] ∨ [':'] <+: line) :
    processLine parse now s line = (s, [], []) := by
  simp only [processLine, if_pos h]

/-- Witness for C7 at a concrete heartbeat line and a concrete blank
line. -/
theorem blank_and_heartbeat_skipped_witness :
    processLine noParse 0 initConsumer (':' :: "hb".toList) =
        (initConsumer, [], []) ∧
      processLine noParse 0 initConsumer [' ', ' '] = (initConsumer, [], []) :=
  ⟨blank_and_heartbeat_skipped noParse 0 initConsumer (':' :: "hb".toList)
      (Or.inr ⟨"hb".toList, rfl⟩),
   blank_and_heartbeat_skipped noParse 0 initConsumer [' ', ' ']
      (Or.inl (by decide))⟩

/-- A list headed by a non-whitespace character does not trim to
empty. -/
theorem jsTrim_cons_ne_nil (c : Char) (rest : List Char)
    (hc : c.isWhitespace = false) : jsTrim (c :: rest) ≠ [] := by
  intro h
  have h1 : (c :: rest).dropWhile Char.isWhitespace = c :: rest := by
    simp [List.dropWhile_cons, hc]
  rw [jsTrim, h1, List.reverse_eq_nil_iff, List.dropWhile_eq_nil_iff] at h
  have := h c (by simp)
  rw [hc] at this
  exact Bool.false_ne_true this

/-- A line carrying a data frame is neither blank nor a heartbeat. -/
theorem data_line_not_blank (line : List Char)
    (h : "data: ".toList <+: line) :
    ¬(jsTrim line = [] ∨ [':'] <+: line) := by
  obtain ⟨t, ht⟩ := h
  subst ht
  rintro (hblank | ⟨u, hu⟩)
  · exact jsTrim_cons_ne_nil 'd' _ (by decide) hblank
  · exact absurd (List.head_eq_of_cons_eq hu) (by decide)

/-- A data line whose payload fails to parse, or parses to a value that
is not a truthy object with a step property, is dropped: no state
change, no callback, no handleProgress call. -/
theorem processLine_bad_frame (parse : List Char → Option JVal) (now : Nat)
    (s : ConsumerState) (line : List Char)
    (hdata : "data: ".toList <+: line)
    (hbad : ∀ v, parse (line.drop 6) = some v →
      (jTruthy v && jTypeofObject v && jHasField v "step") = false) :
    processLine parse now s line = (s, [], []) := by
  rw [processLine, if_neg (data_line_not_blank line hdata), if_pos hdata]
  cases hp : parse (line.drop 6) with
  | none => rfl
  | some v => simp [hbad v hp]

/-- The readStream line loop over concatenated line lists runs the two
parts in sequence. -/
theorem processLines_append (parse : List Char → Option JVal) (now : Nat)
    (s : ConsumerState) (xs ys : List (List Char)) :
    processLines parse now s (xs ++ ys) =
      ((processLines parse now (processLines parse now s xs).1 ys).1,
       (processLines parse now s xs).2.1 ++
         (processLines parse now (processLines parse now s xs).1 ys).2.1,
       (processLines parse now s xs).2.2 ++
         (processLines parse now (processLines parse now s xs).1 ys).2.2) := by
  induction xs generalizing s with
  | nil => simp [processLines]
  | cons x xs ih =>
    simp only [List.cons_append, processLines, List.append_eq]
    rw [ih]
    simp [List.append_assoc]

/-- C2.  A line that begins with the data marker but whose payload is
not parseable JSON, or parses to a value without a step field, is
dropped and processing continues: the remaining lines of the chunk are
handled exactly as if the bad frame had not been received. -/
theorem bad_frame_dropped (parse : List Char → Option JVal) (now : Nat)
    (s : ConsumerState) (pre post : List (List Char)) (line : List Char)
    (hdata : "data: ".toList <+: line)
    (hbad : ∀ v, parse (line.drop 6) = some v →
      (jTruthy v && jTypeofObject v && jHasField v "step") = false) :
    processLines parse now s (pre ++ line :: post) =
      processLines parse now s (pre ++ post) := by
  induction pre generalizing s with
  | nil =>
    simp only [List.nil_append, processLines,
      processLine_bad_frame parse now s line hdata hbad]
  | cons x pre ih =>
    simp only [List.cons_append, processLines, List.append_eq]
    rw [ih]

/-- Witness for C2: a malformed frame between two well-formed frames of
a concrete stream is dropped while the others are still processed. -/
theorem bad_frame_dropped_witness :
    processLines demoParse 0 initConsumer
        (["data: p".toList] ++ "data: zz".toList :: ["data: e".toList]) =
      processLines demoParse 0 initConsumer
        (["data: p".toList] ++ ["data: e".toList]) :=
  bad_frame_dropped demoParse 0 initConsumer ["data: p".toList]
    ["data: e".toList] "data: zz".toList ⟨"zz".toList, rfl⟩
    (fun v hv => by
      rw [show ("data: zz".toList.drop 6) = "zz".toList from rfl] at hv
      rw [show demoParse "zz".toList = none from rfl] at hv
      exact Option.noConfusion hv)

/-- C3.  When a chunk arrives while the buffered line already exceeds
the 1 MiB cap, the stream is aborted: the buffer is cleared, a single
buffer-overflow error callback fires, and neither the arriving chunk nor
any later chunk is read or processed. -/
theorem buffer_overflow_aborts (parse : List Char → Option JVal) (now : Nat)
    (rs : ReadState) (chunk : List Char) (rest : List (List Char))
    (hact : rs.cs.isActive = true)
    (hbuf : rs.buffer.length > MAX_BUFFER_SIZE) :
    runStream parse now rs (chunk :: rest) =
      ({ rs with buffer := [] },
       [CB.onError (JVal.str "Stream buffer overflow")], []) := by
  simp [runStream, hact, hbuf]

/-- Witness for C3: a concrete over-cap buffer with a pending chunk and
a further queued chunk aborts with exactly the overflow error. -/
theorem buffer_overflow_aborts_witness :
    bigBuffer.length > MAX_BUFFER_SIZE ∧
      runStream noParse 0 { buffer := bigBuffer, cs := initConsumer }
          [['x'], ['y']] =
        ({ buffer := [], cs := initConsumer },
         [CB.onError (JVal.str "Stream buffer overflow")], []) :=
  ⟨by simp [bigBuffer],
   buffer_overflow_aborts noParse 0
     { buffer := bigBuffer, cs := initConsumer } ['x'] [['y']] rfl
     (by simp [bigBuffer])⟩

/-- C8.  An empty query never starts the pipeline: with an empty or
whitespace-only query handleSubmit returns without changing any state
(in particular without showing progress or recording a query), and the
ResearchProgress effect issues no stream fetch for an empty query
prop. -/
theorem empty_query_rejected (query : List Char) (st : AppState)
    (h : jsTrim query = []) :
    handleSubmit query st = st ∧ researchProgressStartsFetch [] = false :=
  ⟨by simp [handleSubmit, h], rfl⟩

/-- Witness for C8 at a concrete whitespace query and a concrete idle
state. -/
theorem empty_query_rejected_witness :
    handleSubmit [' ', ' ']
        { loading := false, error := none, result := none,
          showProgress := false, currentQuery := [] } =
      { loading := false, error := none, result := none,
        showProgress := false, currentQuery := [] } ∧
      researchProgressStartsFetch [] = false :=
  empty_query_rejected [' ', ' ']
    { loading := false, error := none, result := none,
      showProgress := false, currentQuery := [] } (by decide)

/-- The newline split always produces at least one part. -/
theorem splitNl_ne_nil (l : List Char) : splitNl l ≠ [] := by
  induction l with
  | nil => simp [splitNl]
  | cons c rest ih =>
    simp only [splitNl]
    split
    · simp
    · split
      · simp
      · simp

/-- A newline-free list splits into itself alone. -/
theorem splitNl_no_nl (l : List Char) (h : '\n' ∉ l) : splitNl l = [l] := by
  induction l with
  | nil => rfl
  | cons c rest ih =>
    have hc : ¬c = '\n' := fun hc => h (hc ▸ List.mem_cons_self c rest)
    have hr : '\n' ∉ rest := fun hr => h (List.mem_cons_of_mem c hr)
    simp only [splitNl, if_neg hc, ih hr]

/-- Splitting after a leading newline: an empty part, then the split of
the rest. -/
theorem splitNl_cons_nl (l : List Char) :
    splitNl ('\n' :: l) = [] :: splitNl l := by
  simp [splitNl]

/-- Splitting after a leading ordinary character: the character joins
the first part of the split of the rest. -/
theorem splitNl_cons_of_ne (c : Char) (l : List Char) (hc : ¬c = '\n') :
    splitNl (c :: l) =
      (c :: ((splitNl l).head?).getD []) :: (splitNl l).tail := by
  cases h : splitNl l with
  | nil => exact absurd h (splitNl_ne_nil l)
  | cons p ps => simp [splitNl, if_neg hc, h]

/-- Splitting a concatenation: the parts of the left side except its
trailing part, then the trailing part glued to the first part of the
right side, then the remaining parts of the right side. -/
theorem splitNl_append (a b : List Char) :
    splitNl (a ++ b) =
      (splitNl a).dropLast ++
        ((((splitNl a).getLast?).getD [] ++ ((splitNl b).head?).getD []) ::
          (splitNl b).tail) := by
  induction a with
  | nil =>
    cases hb : splitNl b with
    | nil => exact absurd hb (splitNl_ne_nil b)
    | cons p ps => simp [splitNl, hb]
  | cons c a ih =>
    by_cases hc : c = '\n'
    · subst hc
      rw [List.cons_append, splitNl_cons_nl, splitNl_cons_nl, ih]
      cases ha : splitNl a with
      | nil => exact absurd ha (splitNl_ne_nil a)
      | cons p ps =>
        cases ps with
        | nil => simp
        | cons q qs => simp [List.getLast?_cons_cons]
    · rw [List.cons_append, splitNl_cons_of_ne c _ hc,
        splitNl_cons_of_ne c _ hc, ih]
      cases ha : splitNl a with
      | nil => exact absurd ha (splitNl_ne_nil a)
      | cons p ps =>
        cases hb : splitNl b with
        | nil => exact absurd hb (splitNl_ne_nil b)
        | cons u us =>
          cases ps with
          | nil => simp
          | cons q qs => simp [List.getLast?_cons_cons]

/-- A newline-free list is its own trailing part. -/
theorem lastPart_of_no_nl (l : List Char) (h : '\n' ∉ l) : lastPart l = l := by
  rw [lastPart, splitNl_no_nl l h]
  rfl

/-- The trailing part of a split never contains a newline. -/
theorem lastPart_no_nl (l : List Char) : '\n' ∉ lastPart l := by
  induction l with
  | nil => simp [lastPart, splitNl]
  | cons c rest ih =>
    by_cases hc : c = '\n'
    · subst hc
      cases hr : splitNl rest with
      | nil => exact absurd hr (splitNl_ne_nil rest)
      | cons p ps =>
        have h1 : lastPart ('\n' :: rest) = lastPart rest := by
          simp [lastPart, splitNl, hr, List.getLast?_cons_cons]
        rw [h1]; exact ih
    · cases hr : splitNl rest with
      | nil => exact absurd hr (splitNl_ne_nil rest)
      | cons p ps =>
        cases ps with
        | nil =>
          have hp : lastPart rest = p := by simp [lastPart, hr]
          have hnp : '\n' ∉ p := hp ▸ ih
          have h1 : lastPart (c :: rest) = c :: p := by
            simp only [lastPart, splitNl, if_neg hc, hr]
            simp
          rw [h1]
          simp only [List.mem_cons, not_or]
          exact ⟨fun h => hc h.symm, hnp⟩
        | cons q qs =>
          have h1 : lastPart (c :: rest) = lastPart rest := by
            simp only [lastPart, splitNl, if_neg hc, hr,
              List.getLast?_cons_cons]
          rw [h1]; exact ih

/-- Splitting a concatenation, stated through the buffered trailing
part: the complete parts of the left side, then the split of the
trailing part glued to the right side. -/
theorem splitNl_append_alt (a b : List Char) :
    splitNl (a ++ b) =
      (splitNl a).dropLast ++ splitNl (lastPart a ++ b) := by
  rw [splitNl_append a b, splitNl_append (lastPart a) b,
    splitNl_no_nl (lastPart a) (lastPart_no_nl a)]
  simp [lastPart]

/-- The trailing part of a concatenation depends on the left side only
through its own trailing part. -/
theorem lastPart_append (a b : List Char) :
    lastPart (a ++ b) = lastPart (lastPart a ++ b) := by
  rw [lastPart, splitNl_append_alt,
    List.getLast?_append_of_ne_nil _ (splitNl_ne_nil _)]
  rfl

/-- The complete lines of a concatenation: those of the left side, then
those of the trailing part glued to the right side. -/
theorem splitNl_dropLast_append (a b : List Char) :
    (splitNl (a ++ b)).dropLast =
      (splitNl a).dropLast ++ (splitNl (lastPart a ++ b)).dropLast := by
  rw [splitNl_append_alt a b,
    List.dropLast_append_of_ne_nil _ (splitNl_ne_nil _)]

/-- The buffered trailing part never exceeds the stream read so far. -/
theorem lastPart_length_le (l : List Char) :
    (lastPart l).length ≤ l.length := by
  induction l with
  | nil => simp [lastPart, splitNl]
  | cons c rest ih =>
    by_cases hc : c = '\n'
    · subst hc
      cases hr : splitNl rest with
      | nil => exact absurd hr (splitNl_ne_nil rest)
      | cons p ps =>
        have h1 : lastPart ('\n' :: rest) = lastPart rest := by
          simp [lastPart, splitNl_cons_nl, hr, List.getLast?_cons_cons]
        rw [h1]; exact Nat.le_succ_of_le ih
    · cases hr : splitNl rest with
      | nil => exact absurd hr (splitNl_ne_nil rest)
      | cons p ps =>
        cases ps with
        | nil =>
          have hp : lastPart rest = p := by simp [lastPart, hr]
          have h1 : lastPart (c :: rest) = c :: p := by
            simp [lastPart, splitNl_cons_of_ne c rest hc, hr]
          rw [h1]
          have h2 := ih
          rw [hp] at h2
          simpa using Nat.succ_le_succ h2
        | cons q qs =>
          have h1 : lastPart (c :: rest) = lastPart rest := by
            simp [lastPart, splitNl_cons_of_ne c rest hc, hr,
              List.getLast?_cons_cons]
          rw [h1]; exact Nat.le_succ_of_le ih

/-- A line processed on an inactive stream leaves the state untouched
and fires no callback (the handleProgress call, if any, returns
immediately). -/
theorem processLine_inactive (parse : List Char → Option JVal) (now : Nat)
    (s : ConsumerState) (line : List Char) (h : s.isActive = false) :
    (processLine parse now s line).1 = s ∧
      (processLine parse now s line).2.1 = [] := by
  unfold processLine
  split
  · exact ⟨rfl, rfl⟩
  · split
    · cases hp : parse (line.drop 6) with
      | none => exact ⟨rfl, rfl⟩
      | some v =>
        simp only
        split
        · simp [handleProgress_inactive s v now h]
        · exact ⟨rfl, rfl⟩
    · exact ⟨rfl, rfl⟩

/-- A line processed on an active stream either leaves it active with
the completion flag unchanged and no callback, or flips it to inactive
and complete with exactly one callback. -/
theorem processLine_dichotomy (parse : List Char → Option JVal) (now : Nat)
    (s : ConsumerState) (line : List Char) (h : s.isActive = true) :
    ((processLine parse now s line).1.isActive = true ∧
      (processLine parse now s line).1.isCompleteRef = s.isCompleteRef ∧
      (processLine parse now s line).2.1 = []) ∨
    ((processLine parse now s line).1.isActive = false ∧
      (processLine parse now s line).1.isCompleteRef = true ∧
      (processLine parse now s line).2.1.length = 1) := by
  unfold processLine
  split
  · exact Or.inl ⟨h, rfl, rfl⟩
  · split
    · cases hp : parse (line.drop 6) with
      | none => exact Or.inl ⟨h, rfl, rfl⟩
      | some v =>
        simp only
        split
        · exact handleProgress_dichotomy s v now h
        · exact Or.inl ⟨h, rfl, rfl⟩
    · exact Or.inl ⟨h, rfl, rfl⟩

/-- A line sequence processed on an inactive stream leaves the state
untouched and fires no callback. -/
theorem processLines_inactive (parse : List Char → Option JVal) (now : Nat)
    (lines : List (List Char)) (s : ConsumerState) (h : s.isActive = false) :
    (processLines parse now s lines).1 = s ∧
      (processLines parse now s lines).2.1 = [] := by
  induction lines generalizing s with
  | nil => exact ⟨rfl, rfl⟩
  | cons line rest ih =>
    obtain ⟨h1, h2⟩ := processLine_inactive parse now s line h
    obtain ⟨h3, h4⟩ := ih (processLine parse now s line).1 (by rw [h1]; exact h)
    constructor
    · simp only [processLines]
      rw [h3, h1]
    · simp only [processLines]
      rw [h2, h4, List.append_nil]

/-- A line sequence processed on an active, not-yet-complete stream
either keeps it active and incomplete with no callback, or ends it
inactive and complete with exactly one callback. -/
theorem processLines_dichotomy (parse : List Char → Option JVal) (now : Nat)
    (lines : List (List Char)) (s : ConsumerState) (h : s.isActive = true)
    (hc : s.isCompleteRef = false) :
    ((processLines parse now s lines).1.isActive = true ∧
      (processLines parse now s lines).1.isCompleteRef = false ∧
      (processLines parse now s lines).2.1 = []) ∨
    ((processLines parse now s lines).1.isActive = false ∧
      (processLines parse now s lines).1.isCompleteRef = true ∧
      (processLines parse now s lines).2.1.length = 1) := by
  induction lines generalizing s with
  | nil => exact Or.inl ⟨h, hc, rfl⟩
  | cons line rest ih =>
    rcases processLine_dichotomy parse now s line h with
      ⟨h1, h2, h3⟩ | ⟨h1, h2, h3⟩
    · rcases ih (processLine parse now s line).1 h1 (h2.trans hc) with
        ⟨h4, h5, h6⟩ | ⟨h4, h5, h6⟩
      · exact Or.inl ⟨h4, h5, by simp [processLines, h3, h6]⟩
      · exact Or.inr ⟨h4, h5, by simp [processLines, h3, h6]⟩
    · obtain ⟨h4, h5⟩ :=
        processLines_inactive parse now rest (processLine parse now s line).1 h1
      refine Or.inr ⟨h4 ▸ h1, h4 ▸ h2, ?_⟩
      simp [processLines, h5, h3]

/-- readStream on an inactive stream reads nothing and fires nothing. -/
theorem runStream_inactive (parse : List Char → Option JVal) (now : Nat)
    (rs : ReadState) (chunks : List (List Char))
    (h : rs.cs.isActive = false) :
    runStream parse now rs chunks = (rs, [], []) := by
  cases chunks <;> simp [runStream, h]

/-- From an active, not-yet-complete read state, every run of readStream
fires exactly one callback. -/
theorem runStream_count (parse : List Char → Option JVal) (now : Nat)
    (chunks : List (List Char)) (rs : ReadState)
    (h : rs.cs.isActive = true) (hc : rs.cs.isCompleteRef = false) :
    (runStream parse now rs chunks).2.1.length = 1 := by
  induction chunks generalizing rs with
  | nil => simp [runStream, h, hc]
  | cons chunk rest ih =>
    by_cases hb : rs.buffer.length > MAX_BUFFER_SIZE
    · simp [runStream, h, hb]
    · rcases processLines_dichotomy parse now
          (splitNl (rs.buffer ++ chunk)).dropLast rs.cs h hc with
        ⟨h1, h2, h3⟩ | ⟨h1, h2, h3⟩
      · simp only [runStream, h, Bool.not_true, Bool.false_eq_true,
          if_false, hb, h3, List.nil_append]
        exact ih _ h1 h2
      · have h5 := runStream_inactive parse now
          { buffer := ((splitNl (rs.buffer ++ chunk)).getLast?).getD [],
            cs :=
              (processLines parse now rs.cs
                (splitNl (rs.buffer ++ chunk)).dropLast).1 } rest h1
        simp only [runStream, h, Bool.not_true, Bool.false_eq_true,
          if_false, hb]
        rw [h5]
        simp [h3]

/-- The reference semantics decomposes at any point of the stream text:
first the complete lines of the left side run, then the rest of the
stream continues from the buffered trailing part. -/
theorem canonStream_append (parse : List Char → Option JVal) (now : Nat)
    (cs : ConsumerState) (a b : List Char) :
    canonStream parse now cs (a ++ b) =
      ((canonStream parse now
          (processLines parse now cs (splitNl a).dropLast).1
          (lastPart a ++ b)).1,
       (processLines parse now cs (splitNl a).dropLast).2.1 ++
         (canonStream parse now
            (processLines parse now cs (splitNl a).dropLast).1
            (lastPart a ++ b)).2) := by
  unfold canonStream
  rw [splitNl_dropLast_append a b, processLines_append]
  by_cases h1 :
      (processLines parse now
        (processLines parse now cs (splitNl a).dropLast).1
        (splitNl (lastPart a ++ b)).dropLast).1.isActive
  · by_cases h2 :
        (processLines parse now
          (processLines parse now cs (splitNl a).dropLast).1
          (splitNl (lastPart a ++ b)).dropLast).1.isCompleteRef
    · simp [h1, h2]
    · simp [h1, h2]
  · simp [h1]

/-- From an active stream state and a newline-free buffer whose every
reachable buffered remainder stays within the cap, readStream over any
chunk sequence produces exactly the outcome of the reference semantics
on the concatenated stream text. -/
theorem runStream_eq_canon (parse : List Char → Option JVal) (now : Nat)
    (chunks : List (List Char)) (cs : ConsumerState) (buf : List Char)
    (hnl : '\n' ∉ buf)
    (hbound : ∀ i, i < chunks.length →
      (lastPart (buf ++ (chunks.take i).flatten)).length ≤ MAX_BUFFER_SIZE) :
    ((runStream parse now { buffer := buf, cs := cs } chunks).1.cs,
      (runStream parse now { buffer := buf, cs := cs } chunks).2.1) =
      canonStream parse now cs (buf ++ chunks.flatten) := by
  induction chunks generalizing cs buf with
  | nil =>
    rw [List.flatten_nil, List.append_nil]
    unfold canonStream
    rw [splitNl_no_nl buf hnl]
    by_cases h : cs.isActive
    · by_cases h2 : cs.isCompleteRef
      · simp [runStream, processLines, h, h2]
      · simp [runStream, processLines, h, h2]
    · simp [runStream, processLines, h]
  | cons chunk rest ih =>
    by_cases hact : cs.isActive
    · have hb0 : ¬(buf.length > MAX_BUFFER_SIZE) := by
        have := hbound 0 (by simp)
        rw [List.take_zero, List.flatten_nil, List.append_nil,
          lastPart_of_no_nl buf hnl] at this
        omega
      have hrec :
          ∀ i, i < rest.length →
            (lastPart (lastPart (buf ++ chunk) ++
              (rest.take i).flatten)).length ≤ MAX_BUFFER_SIZE := by
        intro i hi
        rw [← lastPart_append (buf ++ chunk) ((rest.take i).flatten),
          List.append_assoc]
        have := hbound (i + 1) (by simpa using Nat.succ_lt_succ hi)
        rwa [List.take_succ_cons, List.flatten_cons] at this
      have hIH := ih
        (processLines parse now cs (splitNl (buf ++ chunk)).dropLast).1
        (lastPart (buf ++ chunk)) (lastPart_no_nl (buf ++ chunk)) hrec
      rw [List.flatten_cons, ← List.append_assoc,
        canonStream_append parse now cs (buf ++ chunk) rest.flatten]
      simp only [runStream, hact, Bool.not_true, Bool.false_eq_true,
        if_false, hb0]
      rw [show ((splitNl (buf ++ chunk)).getLast?).getD [] =
        lastPart (buf ++ chunk) from rfl]
      rw [Prod.ext_iff] at hIH ⊢
      obtain ⟨hIH1, hIH2⟩ := hIH
      exact ⟨hIH1, by rw [← hIH2]⟩
    · have hact' : cs.isActive = false := by simpa using hact
      rw [runStream_inactive parse now { buffer := buf, cs := cs } _ hact']
      obtain ⟨h1, h2⟩ := processLines_inactive parse now
        (splitNl (buf ++ (chunk ++ rest.flatten))).dropLast cs hact'
      simp [canonStream, h1, h2, hact']

/-- C4.  Every stream consumption ends in exactly one user-visible
outcome: over any chunk sequence exactly one callback fires (an
onComplete with the completed details or an onError with an explanatory
error); and when the stream ends without a terminal event having been
processed - the buffered remainders staying within the cap - that single
callback is the stream-ended-unexpectedly error. -/
theorem stream_single_outcome (parse : List Char → Option JVal) (now : Nat)
    (chunks : List (List Char)) :
    (runStream parse now initReadState chunks).2.1.length = 1 ∧
      ((∀ p, p <+: chunks.flatten →
          (lastPart p).length ≤ MAX_BUFFER_SIZE) →
        (runStream parse now initReadState chunks).1.cs.isCompleteRef = false →
        (runStream parse now initReadState chunks).2.1 =
          [CB.onError (JVal.str "Stream ended unexpectedly")]) := by
  constructor
  · exact runStream_count parse now chunks initReadState rfl rfl
  · intro hbound hincomplete
    have heq := runStream_eq_canon parse now chunks initConsumer []
      (by simp)
      (fun i _ => by
        rw [List.nil_append]
        exact hbound ((chunks.take i).flatten)
          ⟨(chunks.drop i).flatten, by
            rw [← List.flatten_append, List.take_append_drop]⟩)
    rw [List.nil_append] at heq
    have heq1 : (runStream parse now initReadState chunks).1.cs =
        (canonStream parse now initConsumer chunks.flatten).1 :=
      congrArg Prod.fst heq
    have heq2 : (runStream parse now initReadState chunks).2.1 =
        (canonStream parse now initConsumer chunks.flatten).2 :=
      congrArg Prod.snd heq
    rcases processLines_dichotomy parse now
        (splitNl chunks.flatten).dropLast initConsumer rfl rfl with
      ⟨hA1, hA2, hA3⟩ | ⟨hB1, hB2, hB3⟩
    · rw [heq2]
      simp [canonStream, hA1, hA2, hA3]
    · exfalso
      rw [heq1] at hincomplete
      by_cases hAct :
          (processLines parse now initConsumer
            (splitNl chunks.flatten).dropLast).1.isActive
      · simp [canonStream, hAct, hB2] at hincomplete
      · simp [canonStream, hAct, hB2] at hincomplete

/-- Witness for C4 on a concrete stream that ends without a terminal
event: exactly one callback, the unexpected-end error. -/
theorem stream_single_outcome_witness :
    (runStream noParse 0 initReadState ["hi".toList]).2.1.length = 1 ∧
      (runStream noParse 0 initReadState ["hi".toList]).2.1 =
        [CB.onError (JVal.str "Stream ended unexpectedly")] :=
  ⟨(stream_single_outcome noParse 0 ["hi".toList]).1,
   (stream_single_outcome noParse 0 ["hi".toList]).2
     (fun p hp =>
       le_trans (lastPart_length_le p)
         (le_trans hp.length_le (by decide)))
     (by decide)⟩

/-- C5 counterexample.  Two chunkings of the same byte stream, whose
buffered remainders all stay far below the cap (the whole stream is
sixteen characters), cause different handleProgress call sequences: the
one-chunk split delivers two calls, while the split at the line boundary
delivers one, because the terminal first frame stops further reads. -/
theorem chunking_changes_calls :
    (["data: e\ndata: p\n".toList] : List (List Char)).flatten =
        (["data: e\n".toList, "data: p\n".toList] :
          List (List Char)).flatten ∧
      (["data: e\ndata: p\n".toList] :
        List (List Char)).flatten.length ≤ MAX_BUFFER_SIZE ∧
      (runStream demoParse 0 initReadState
        ["data: e\ndata: p\n".toList]).2.2.length = 2 ∧
      (runStream demoParse 0 initReadState
        ["data: e\n".toList, "data: p\n".toList]).2.2.length = 1 :=
  ⟨by decide, by decide, by decide, by decide⟩

/-- C5 as amended.  Frame delivery is independent of chunk boundaries
in its observable effect: for any two chunkings of the same byte stream
whose buffered remainders stay within the cap, readStream produces the
same final consumer state and the same callback sequence (handleProgress
calls made after a terminal event may differ between chunkings, but they
are ignored). -/
theorem chunking_independent_outcome (parse : List Char → Option JVal)
    (now : Nat) (chunksA chunksB : List (List Char))
    (hflat : chunksA.flatten = chunksB.flatten)
    (hbound : ∀ p, p <+: chunksA.flatten →
      (lastPart p).length ≤ MAX_BUFFER_SIZE) :
    streamOutcome parse now chunksA = streamOutcome parse now chunksB := by
  have hA := runStream_eq_canon parse now chunksA initConsumer []
    (by simp)
    (fun i _ => by
      rw [List.nil_append]
      exact hbound ((chunksA.take i).flatten)
        ⟨(chunksA.drop i).flatten, by
          rw [← List.flatten_append, List.take_append_drop]⟩)
  have hB := runStream_eq_canon parse now chunksB initConsumer []
    (by simp)
    (fun i _ => by
      rw [List.nil_append]
      refine hbound ((chunksB.take i).flatten) ?_
      rw [hflat]
      exact ⟨(chunksB.drop i).flatten, by
        rw [← List.flatten_append, List.take_append_drop]⟩)
  rw [List.nil_append] at hA hB
  unfold streamOutcome
  rw [show (initReadState : ReadState) =
    { buffer := [], cs := initConsumer } from rfl]
  rw [hA, hB, hflat]

/-- Witness for the amended C5 at a concrete stream and two concrete
chunkings of it. -/
theorem chunking_independent_outcome_witness :
    streamOutcome demoParse 0 ["data: p\nda".toList, "ta: e\n".toList] =
      streamOutcome demoParse 0 ["data: p\ndata: e\n".toList] :=
  chunking_independent_outcome demoParse 0
    ["data: p\nda".toList, "ta: e\n".toList] ["data: p\ndata: e\n".toList]
    (by decide)
    (fun p hp =>
      le_trans (lastPart_length_le p)
        (le_trans hp.length_le (by decide)))

/-- Every entry of the accumulator after an insertion is an old entry or
the inserted match. -/
theorem mem_insertMatch (acc : List VerseMatch) (m e : VerseMatch)
    (h : e ∈ insertMatch acc m) : e ∈ acc ∨ e = m := by
  induction acc with
  | nil =>
    simp only [insertMatch, List.mem_singleton] at h
    exact Or.inr h
  | cons a rest ih =>
    by_cases hid : a.verseId = m.verseId
    · simp only [insertMatch, if_pos hid] at h
      rcases List.mem_cons.mp h with he | he
      · by_cases hs : a.score < m.score
        · rw [if_pos hs] at he; exact Or.inr he
        · rw [if_neg hs] at he; exact Or.inl (he ▸ List.mem_cons_self a rest)
      · exact Or.inl (List.mem_cons_of_mem a he)
    · simp only [insertMatch, if_neg hid] at h
      rcases List.mem_cons.mp h with he | he
      · exact Or.inl (he ▸ List.mem_cons_self a rest)
      · rcases ih he with h2 | h2
        · exact Or.inl (List.mem_cons_of_mem a h2)
        · exact Or.inr h2

/-- Insertion keeps the identifier list unchanged when the identifier is
already present, and appends it otherwise. -/
theorem insertMatch_ids (acc : List VerseMatch) (m : VerseMatch) :
    (insertMatch acc m).map VerseMatch.verseId =
      if acc.any (fun a => a.verseId == m.verseId) then
        acc.map VerseMatch.verseId
      else acc.map VerseMatch.verseId ++ [m.verseId] := by
  induction acc with
  | nil => simp [insertMatch]
  | cons a rest ih =>
    by_cases hid : a.verseId = m.verseId
    · have hk : ((if a.score < m.score then m else a) :: rest).map
          VerseMatch.verseId = a.verseId :: rest.map VerseMatch.verseId := by
        by_cases hs : a.score < m.score
        · simp [hs, hid]
        · simp [hs]
      simp [insertMatch, if_pos hid, hk, hid]
    · have hne : (a.verseId == m.verseId) = false := by
        simpa using hid
      simp only [insertMatch, if_neg hid, List.map_cons, ih,
        List.any_cons, hne, Bool.false_or]
      by_cases hany : rest.any (fun a => a.verseId == m.verseId) <;>
        simp [hany]

/-- Insertion preserves uniqueness of identifiers. -/
theorem insertMatch_nodup (acc : List VerseMatch) (m : VerseMatch)
    (h : (acc.map VerseMatch.verseId).Nodup) :
    ((insertMatch acc m).map VerseMatch.verseId).Nodup := by
  rw [insertMatch_ids]
  by_cases hany : acc.any (fun a => a.verseId == m.verseId)
  · rw [if_pos hany]; exact h
  · rw [if_neg hany]
    refine List.Nodup.append h (List.nodup_singleton _) ?_
    intro x hx hxm
    obtain ⟨a, ha, hid⟩ := List.mem_map.mp hx
    rw [List.mem_singleton] at hxm
    exact hany (List.any_eq_true.mpr
      ⟨a, ha, by rw [hid, hxm]; exact beq_self_eq_true _⟩)

/-- Any identifier represented in the accumulator, and the inserted
identifier, are represented after the insertion. -/
theorem insertMatch_cover (acc : List VerseMatch) (m : VerseMatch)
    (y : String) (h : (∃ e ∈ acc, e.verseId = y) ∨ m.verseId = y) :
    ∃ e ∈ insertMatch acc m, e.verseId = y := by
  induction acc with
  | nil =>
    rcases h with ⟨e, he, _⟩ | h
    · exact absurd he (List.not_mem_nil e)
    · exact ⟨m, List.mem_singleton_self m, h⟩
  | cons a rest ih =>
    by_cases hid : a.verseId = m.verseId
    · simp only [insertMatch, if_pos hid]
      have hk : (if a.score < m.score then m else a).verseId = a.verseId := by
        by_cases hs : a.score < m.score <;> simp [hs, hid]
      rcases h with ⟨e, he, hey⟩ | h
      · rcases List.mem_cons.mp he with he1 | he1
        · exact ⟨_, List.mem_cons_self _ _, hk.trans (he1 ▸ hey)⟩
        · exact ⟨e, List.mem_cons_of_mem _ he1, hey⟩
      · exact ⟨_, List.mem_cons_self _ _, by rw [hk, hid, h]⟩
    · simp only [insertMatch, if_neg hid]
      rcases h with ⟨e, he, hey⟩ | h
      · rcases List.mem_cons.mp he with he1 | he1
        · exact ⟨a, List.mem_cons_self _ _, he1 ▸ hey⟩
        · obtain ⟨e2, he2, hey2⟩ := ih (Or.inl ⟨e, he1, hey⟩)
          exact ⟨e2, List.mem_cons_of_mem _ he2, hey2⟩
      · obtain ⟨e2, he2, hey2⟩ := ih (Or.inr h)
        exact ⟨e2, List.mem_cons_of_mem _ he2, hey2⟩

/-- After inserting a match, the entry carrying its identifier scores at
least the inserted score (the higher score wins on a duplicate). -/
theorem insertMatch_score_ge (acc : List VerseMatch) (m : VerseMatch)
    (hnd : (acc.map VerseMatch.verseId).Nodup) :
    ∀ e ∈ insertMatch acc m, e.verseId = m.verseId → m.score ≤ e.score := by
  induction acc with
  | nil =>
    intro e he _
    rw [List.mem_singleton.mp he]
  | cons a rest ih =>
    intro e he hey
    by_cases hid : a.verseId = m.verseId
    · simp only [insertMatch, if_pos hid] at he
      rcases List.mem_cons.mp he with he1 | he1
      · by_cases hs : a.score < m.score
        · rw [he1, if_pos hs]
        · rw [he1, if_neg hs]
          exact le_of_not_lt hs
      · exfalso
        have hmem : a.verseId ∈ rest.map VerseMatch.verseId :=
          List.mem_map.mpr ⟨e, he1, by rw [hey, hid]⟩
        exact (List.nodup_cons.mp hnd).1 hmem
    · simp only [insertMatch, if_neg hid] at he
      rcases List.mem_cons.mp he with he1 | he1
      · exact absurd (he1 ▸ hey) hid
      · exact ih (List.nodup_cons.mp hnd).2 e he1 hey

/-- Inserting a match preserves score maximality of every entry with
respect to the enlarged source list, provided the inserted identifier,
where already retrieved, is represented in the accumulator. -/
theorem insertMatch_scores_ub (src acc : List VerseMatch) (m : VerseMatch)
    (hnd : (acc.map VerseMatch.verseId).Nodup)
    (hub : ∀ e ∈ acc, ∀ x ∈ src, x.verseId = e.verseId → x.score ≤ e.score)
    (hcovm : ∀ x ∈ src, x.verseId = m.verseId →
      ∃ a ∈ acc, a.verseId = m.verseId) :
    ∀ e ∈ insertMatch acc m, ∀ x ∈ src ++ [m],
      x.verseId = e.verseId → x.score ≤ e.score := by
  induction acc with
  | nil =>
    intro e he x hx hxe
    rw [List.mem_singleton.mp he] at hxe ⊢
    rcases List.mem_append.mp hx with hx1 | hx1
    · obtain ⟨a, ha, _⟩ := hcovm x hx1 hxe
      exact absurd ha (List.not_mem_nil a)
    · rw [List.mem_singleton.mp hx1]
  | cons a rest ih =>
    intro e he x hx hxe
    by_cases hid : a.verseId = m.verseId
    · simp only [insertMatch, if_pos hid] at he
      have hk : (if a.score < m.score then m else a).verseId = a.verseId := by
        by_cases hs : a.score < m.score <;> simp [hs, hid]
      have hka : a.score ≤ (if a.score < m.score then m else a).score := by
        by_cases hs : a.score < m.score
        · rw [if_pos hs]; exact le_of_lt hs
        · rw [if_neg hs]
      have hkm : m.score ≤ (if a.score < m.score then m else a).score := by
        by_cases hs : a.score < m.score
        · rw [if_pos hs]
        · rw [if_neg hs]; exact le_of_not_lt hs
      rcases List.mem_cons.mp he with he1 | he1
      · rcases List.mem_append.mp hx with hx1 | hx1
        · have : x.score ≤ a.score :=
            hub a (List.mem_cons_self a rest) x hx1
              (by rw [hxe, he1, hk])
          exact le_trans this (he1 ▸ hka)
        · rw [List.mem_singleton.mp hx1]
          exact he1 ▸ hkm
      · rcases List.mem_append.mp hx with hx1 | hx1
        · exact hub e (List.mem_cons_of_mem a he1) x hx1 hxe
        · exfalso
          rw [List.mem_singleton.mp hx1] at hxe
          have hmem : a.verseId ∈ rest.map VerseMatch.verseId :=
            List.mem_map.mpr ⟨e, he1, by rw [← hxe, hid]⟩
          exact (List.nodup_cons.mp hnd).1 hmem
    · simp only [insertMatch, if_neg hid] at he
      rcases List.mem_cons.mp he with he1 | he1
      · subst he1
        rcases List.mem_append.mp hx with hx1 | hx1
        · exact hub e (List.mem_cons_self e rest) x hx1 hxe
        · rw [List.mem_singleton.mp hx1] at hxe
          exact absurd hxe.symm hid
      · refine ih (List.nodup_cons.mp hnd).2
          (fun e2 he2 => hub e2 (List.mem_cons_of_mem a he2))
          (fun x2 hx2 hxm => ?_) e he1 x hx hxe
        obtain ⟨a2, ha2, ha2m⟩ := hcovm x2 hx2 hxm
        rcases List.mem_cons.mp ha2 with ha21 | ha21
        · exact absurd (ha21 ▸ ha2m) hid
        · exact ⟨a2, ha21, ha2m⟩

/-- One step of the deduplicating fold preserves the accumulator
invariant. -/
theorem dedupGood_step (src acc : List VerseMatch) (m : VerseMatch)
    (h : DedupGood src acc) : DedupGood (src ++ [m]) (insertMatch acc m) := by
  obtain ⟨hnd, hbest, hcov⟩ := h
  refine ⟨insertMatch_nodup acc m hnd, ?_, ?_⟩
  · intro e he
    constructor
    · exact fun x hx hxe =>
        insertMatch_scores_ub src acc m hnd
          (fun e2 he2 => (hbest e2 he2).1)
          (fun x2 hx2 hxm => by
            obtain ⟨e2, he2, he2x⟩ := hcov x2 hx2
            exact ⟨e2, he2, by rw [he2x, hxm]⟩)
          e he x hx hxe
    · rcases mem_insertMatch acc m e he with he1 | he1
      · obtain ⟨x, hx, hxe, hxs⟩ := (hbest e he1).2
        exact ⟨x, List.mem_append_left _ hx, hxe, hxs⟩
      · exact ⟨m, List.mem_append_right _ (List.mem_singleton_self m),
          by rw [he1], by rw [he1]⟩
  · intro x hx
    rcases List.mem_append.mp hx with hx1 | hx1
    · obtain ⟨e, he, hex⟩ := hcov x hx1
      exact insertMatch_cover acc m x.verseId (Or.inl ⟨e, he, hex⟩)
    · rw [List.mem_singleton.mp hx1]
      exact insertMatch_cover acc m m.verseId (Or.inr rfl)

/-- The deduplicating fold establishes the invariant over any source
list. -/
theorem dedupGood_fold (ms src acc : List VerseMatch)
    (h : DedupGood src acc) :
    DedupGood (src ++ ms) (List.foldl insertMatch acc ms) := by
  induction ms generalizing src acc with
  | nil => simpa using h
  | cons m rest ih =>
    have h2 := ih (src ++ [m]) (insertMatch acc m) (dedupGood_step src acc m h)
    rw [List.append_assoc, List.singleton_append] at h2
    exact h2

/-- C6 (modelled from the spec).  The deduplicated verse list of a
research run contains no two entries with the same verse identifier;
every kept entry scores at least every retrieved match for its verse
(so on duplicate retrievals the maximum score is kept) and its score was
actually retrieved; and every retrieved verse is represented. -/
theorem dedup_verses_unique_max (ms : List VerseMatch) :
    ((dedupMatches ms).map VerseMatch.verseId).Nodup ∧
      (∀ e ∈ dedupMatches ms,
        (∀ m ∈ ms, m.verseId = e.verseId → m.score ≤ e.score) ∧
          ∃ m ∈ ms, m.verseId = e.verseId ∧ m.score = e.score) ∧
      ∀ m ∈ ms, ∃ e ∈ dedupMatches ms, e.verseId = m.verseId := by
  have h := dedupGood_fold ms [] []
    ⟨List.nodup_nil, fun e he => absurd he (List.not_mem_nil e),
     fun m hm => absurd hm (List.not_mem_nil m)⟩
  rw [List.nil_append] at h
  exact h

/-- Prepending retrieval steps preserves rank monotonicity when the
continuation starts at or after the retrieval stage. -/
theorem chain_replicate_searching (n : Nat) (rest : List Step)
    (hrest : List.Chain' (fun a b => stepRank a ≤ stepRank b) rest)
    (hhead : ∀ y ∈ rest.head?, 2 ≤ stepRank y) :
    List.Chain' (fun a b => stepRank a ≤ stepRank b)
      (List.replicate n Step.searching_verse ++ rest) := by
  induction n with
  | zero => simpa using hrest
  | succ k ih =>
    rw [List.replicate_succ, List.cons_append]
    refine List.chain'_cons'.mpr ⟨?_, ih⟩
    intro y hy
    cases k with
    | zero =>
      rw [List.replicate_zero, List.nil_append] at hy
      exact hhead y hy
    | succ k2 =>
      rw [List.replicate_succ, List.cons_append, List.head?_cons,
        Option.mem_some_iff] at hy
      rw [← hy]

/-- Retrieval steps are not terminal. -/
theorem countP_replicate_searching (n : Nat) :
    (List.replicate n Step.searching_verse).countP isTerminalStep = 0 := by
  induction n with
  | zero => rfl
  | succ k ih =>
    rw [List.replicate_succ, List.countP_cons]
    simp [ih, isTerminalStep]

/-- The shape of every successful-analysis pipeline run with at least
one sub-question: the two opening stages, the per-question retrieval
steps, then a continuation that starts at or after the retrieval stage;
the four ordering properties reduce to properties of the
continuation. -/
theorem pipeline_shape (m : Nat) (post : List Step)
    (h1 : List.Chain' (fun a b => stepRank a ≤ stepRank b) post)
    (h2 : ∀ y ∈ post.head?, 2 ≤ stepRank y)
    (h3 : post.countP isTerminalStep = 1)
    (h4 : post ≠ [])
    (h5 : ∃ t, post.getLast? = some t ∧ isTerminalStep t = true) :
    List.Chain' (fun a b => stepRank a ≤ stepRank b)
        (Step.analyzing :: Step.questions_generated ::
          (List.replicate (m + 1) Step.searching_verse ++ post)) ∧
      (Step.analyzing :: Step.questions_generated ::
        (List.replicate (m + 1) Step.searching_verse ++ post)).countP
          isTerminalStep = 1 ∧
      (∃ t, (Step.analyzing :: Step.questions_generated ::
          (List.replicate (m + 1) Step.searching_verse ++ post)).getLast? =
            some t ∧ isTerminalStep t = true) ∧
      (Step.analyzing :: Step.questions_generated ::
        (List.replicate (m + 1) Step.searching_verse ++ post)).head? =
          some Step.analyzing := by
  refine ⟨?_, ?_, ?_, rfl⟩
  · refine List.chain'_cons'.mpr ⟨fun y hy => ?_, ?_⟩
    · rw [List.head?_cons, Option.mem_some_iff] at hy
      rw [← hy]; decide
    · refine List.chain'_cons'.mpr ⟨fun y hy => ?_, ?_⟩
      · rw [List.replicate_succ, List.cons_append, List.head?_cons,
          Option.mem_some_iff] at hy
        rw [← hy]; decide
      · exact chain_replicate_searching (m + 1) post h1 h2
  · rw [List.countP_cons, List.countP_cons, List.countP_append,
      countP_replicate_searching, h3]
    simp [isTerminalStep]
  · obtain ⟨t, ht, htt⟩ := h5
    refine ⟨t, ?_, htt⟩
    rw [show Step.analyzing :: Step.questions_generated ::
        (List.replicate (m + 1) Step.searching_verse ++ post) =
        (Step.analyzing :: Step.questions_generated ::
          List.replicate (m + 1) Step.searching_verse) ++ post by
      simp]
    rw [List.getLast?_append_of_ne_nil _ h4]
    exact ht

/-- C9 (modelled from the spec).  For every valid non-empty query, the
pipeline emits its progress events in the fixed logical stage order -
analyzing, questions_generated, searching_verse per sub-question,
verses_found, optionally searching_purports and purports_found,
synthesizing, finalizing - the event ranks never going backwards, the
run starts with analyzing, and it ends in exactly one terminal event. -/
theorem pipeline_fixed_order (q : List Char) (o : PipelineOracle)
    (hq : jsTrim q ≠ []) :
    List.Chain' (fun a b => stepRank a ≤ stepRank b) (pipelineRun q o) ∧
      (pipelineRun q o).countP isTerminalStep = 1 ∧
      (∃ t, (pipelineRun q o).getLast? = some t ∧ isTerminalStep t = true) ∧
      (pipelineRun q o).head? = some Step.analyzing := by
  rw [pipelineRun, if_neg hq]
  obtain ⟨aOk, n, iOk, fb, sOk⟩ := o
  cases aOk with
  | false =>
    exact ⟨List.chain'_cons.mpr ⟨by decide, List.chain'_singleton _⟩,
      (show List.countP isTerminalStep [Step.analyzing, Step.error] = 1
        by decide),
      ⟨Step.error, rfl, rfl⟩, rfl⟩
  | true =>
    cases n with
    | zero =>
      exact ⟨List.chain'_cons.mpr ⟨by decide, List.chain'_singleton _⟩,
        (show List.countP isTerminalStep [Step.analyzing, Step.error] = 1
          by decide),
        ⟨Step.error, rfl, rfl⟩, rfl⟩
    | succ m =>
      cases iOk with
      | false =>
        exact pipeline_shape m [Step.error]
          (List.chain'_singleton _) (by decide) (by decide) (by decide)
          ⟨Step.error, rfl, rfl⟩
      | true =>
        cases fb with
        | false =>
          cases sOk with
          | false =>
            exact pipeline_shape m [Step.verses_found, Step.error]
              (by simp [List.chain'_cons, stepRank]) (by decide) (by decide)
              (by decide) ⟨Step.error, rfl, rfl⟩
          | true =>
            exact pipeline_shape m [Step.verses_found, Step.synthesizing,
              Step.finalizing, Step.completed]
              (by simp [List.chain'_cons, stepRank]) (by decide) (by decide)
              (by decide) ⟨Step.completed, rfl, rfl⟩
        | true =>
          cases sOk with
          | false =>
            exact pipeline_shape m [Step.verses_found,
              Step.searching_purports, Step.purports_found, Step.error]
              (by simp [List.chain'_cons, stepRank]) (by decide) (by decide)
              (by decide) ⟨Step.error, rfl, rfl⟩
          | true =>
            exact pipeline_shape m [Step.verses_found,
              Step.searching_purports, Step.purports_found,
              Step.synthesizing, Step.finalizing, Step.completed]
              (by simp [List.chain'_cons, stepRank]) (by decide) (by decide)
              (by decide) ⟨Step.completed, rfl, rfl⟩

/-- Witness for C9 at a concrete query and a concrete run with four
sub-questions, a reachable index, no fallback and successful
synthesis. -/
theorem pipeline_fixed_order_witness :
    List.Chain' (fun a b => stepRank a ≤ stepRank b)
        (pipelineRun "How to deal with stress at work?".toList
          { analyzeOk := true, nQuestions := 4, indexOk := true,
            needFallback := false, synthOk := true }) ∧
      (pipelineRun "How to deal with stress at work?".toList
        { analyzeOk := true, nQuestions := 4, indexOk := true,
          needFallback := false, synthOk := true }).countP
          isTerminalStep = 1 :=
  ⟨(pipeline_fixed_order _ _ (by decide)).1,
   (pipeline_fixed_order _ _ (by decide)).2.1⟩

/-- Witness for C6 at a concrete retrieval with a duplicated verse. -/
theorem dedup_verses_unique_max_witness :
    ((dedupMatches
        [{ verseId := "2.47", score := 1/2, question := "duty" },
         { verseId := "2.47", score := 3/4, question := "work" },
         { verseId := "9.22", score := 1/4, question := "duty" }]).map
      VerseMatch.verseId).Nodup :=
  (dedup_verses_unique_max _).1

end GitaCounsellor
